import Mathlib

set_option maxRecDepth 4000

/-!
Shallow embedding of the `hurdles` crate (`src/lib.rs`): a reusable
sense-reversing spin barrier.

The embedding has two layers.

* An API-level layer: `Barrier.new` (lib.rs 134-144), `Barrier.clone`
  (lib.rs 205-214) and `BarrierWaitResult.is_leader` (lib.rs 233-235) as
  pure functions.  The `Arc<BarrierInner>` allocation is modelled as an
  index into a heap (a list of `BarrierInner` values); `Clone::clone`
  copies the index, which is exactly how `Arc::clone` shares the
  allocation.  The `assert!(!self.used)` panic is modelled by the
  `CloneResult.fatal` constructor.

* An operational layer for `Barrier::wait` (lib.rs 181-202): every store
  and atomic in the source is `SeqCst`, so the concurrent executions of
  `wait` on the shared `BarrierInner` are exactly the sequentially
  consistent interleavings of its atomic accesses.  `Sys.stepAct` is the
  small-step semantics: `Act.arrive` is the call prologue up to and
  including the `fetch_sub` (the two preceding writes, `self.used = true`
  and `self.lsense = !self.lsense`, touch only fields private to the
  handle, hence invisible to other threads, and are folded into the same
  step); `Act.reset` is the leader's `count.store(max)`; `Act.flip` is
  the leader's `gsense.store(lsense)` followed by the return of
  `BarrierWaitResult(true)`; `Act.spinFail` is one failing load of the
  spin loop and `Act.spinExit` the load that observes equality and lets
  the call return `BarrierWaitResult(false)`.  Ghost fields (`started`,
  `done`, `results`, `spins`, `flips`) record the history and are read by
  no step guard.
-/

/-- Number of values of `usize` (the crate targets 64-bit platforms;
`fetch_sub` wraps modulo this). -/
def USIZE : Nat := 2 ^ 64

/-- The shared allocation `BarrierInner` (lib.rs 91-95): `gsense` is the
global sense flag, `count` the live countdown (a `usize`, kept as a `Nat`
below `USIZE`), `max` the capacity. -/
structure BarrierInner where
  gsense : Bool
  count : Nat
  max : Nat
deriving Repr, DecidableEq

/-- A handle, `struct Barrier` (lib.rs 98-102): `inner` is the `Arc`
pointer, modelled as an index into a heap of `BarrierInner` allocations;
`lsense` and `used` are the private per-handle fields. -/
structure Barrier where
  inner : Nat
  lsense : Bool
  used : Bool
deriving Repr, DecidableEq

/-- `struct BarrierWaitResult(bool)` (lib.rs 118). -/
structure BarrierWaitResult where
  leader : Bool
deriving Repr, DecidableEq

/-- `BarrierWaitResult::is_leader` (lib.rs 233-235): returns the wrapped
bool. -/
def BarrierWaitResult.is_leader (r : BarrierWaitResult) : Bool := r.leader

/-- `Barrier::new` (lib.rs 134-144): allocates a fresh `BarrierInner`
with `gsense = true`, `count = n`, `max = n` and returns a handle with
`used = false`, `lsense = true` pointing at it.  The heap is passed
explicitly; the fresh allocation goes at the end. -/
def Barrier.new (n : Nat) (heap : List BarrierInner) :
    Barrier × List BarrierInner :=
  ({ inner := heap.length, lsense := true, used := false },
   heap ++ [{ gsense := true, count := n, max := n }])

/-- Outcome of `<Barrier as Clone>::clone`: `fatal` models the
`assert!(!self.used)` panic (an unrecoverable fault, not an error
value). -/
inductive CloneResult where
  | fatal
  | ok (b : Barrier)
deriving Repr, DecidableEq

/-- `<Barrier as Clone>::clone` (lib.rs 205-214): panics if `self.used`,
otherwise returns a new handle with `used = false`, `lsense` copied, and
the same `inner` pointer (`Arc::clone`). -/
def Barrier.clone (b : Barrier) : CloneResult :=
  if b.used then .fatal
  else .ok { inner := b.inner, lsense := b.lsense, used := false }

/-- State-passing rendering of `clone` over the heap and the borrowed
source handle.  The source method takes `&self` and performs no write to
any `BarrierInner` field (its only heap effect is the `Arc` reference
count, which is not a barrier field), so the heap and source pass through
unchanged on success; `none` models the panic. -/
def Barrier.cloneS (heap : List BarrierInner) (b : Barrier) :
    Option (List BarrierInner × Barrier × Barrier) :=
  match Barrier.clone b with
  | .fatal => none
  | .ok b' => some (heap, b, b')

/-- Program counter of one handle inside (or between) `wait` calls:
`idle` = not inside a call; `leaderReset` = `fetch_sub` returned 1, the
`count.store(max)` at lib.rs 186-188 is pending; `leaderFlip` = the
`gsense.store(lsense)` at lib.rs 189-191 is pending; `spinning` = inside
the spin loop at lib.rs 195-199. -/
inductive Pc where
  | idle
  | leaderReset
  | leaderFlip
  | spinning
deriving Repr, DecidableEq

/-- Per-handle state in the operational model: the two private fields of
`Barrier` plus its control point and ghost history (`started` = number
of `wait` calls whose `fetch_sub` has executed, `done` = number of calls
returned, `results` = the `is_leader` values returned so far in order,
`spins` = number of executed spin-loop iterations, i.e. failing loads). -/
structure TState where
  lsense : Bool
  used : Bool
  pc : Pc
  started : Nat
  done : Nat
  results : List Bool
  spins : Nat
deriving Repr, DecidableEq

/-- Global state: the `BarrierInner` fields, one `TState` per handle,
and the ghost count `flips` of `gsense` stores performed. -/
structure Sys where
  gsense : Bool
  count : Nat
  max : Nat
  threads : List TState
  flips : Nat
deriving Repr, DecidableEq

/-- One atomic step of the interleaving semantics, tagged by the acting
handle's index. -/
inductive Act where
  | arrive (i : Nat)
  | reset (i : Nat)
  | flip (i : Nat)
  | spinFail (i : Nat)
  | spinExit (i : Nat)
deriving Repr, DecidableEq

/-- Wrapping decrement of a `usize` (`fetch_sub(1, ...)`'s effect on the
stored value). -/
def wrapDec (c : Nat) : Nat := (c + (USIZE - 1)) % USIZE

/-- Small-step semantics of `Barrier::wait` (lib.rs 181-202) under
sequential consistency; `none` when the action is not enabled.

* `arrive i`: handle `i` is between calls; it sets `used := true`,
  flips `lsense` (lib.rs 182-183) and performs
  `count.fetch_sub(1, SeqCst)` (lib.rs 184), capturing the old value to
  choose the branch: old value 1 selects the leader branch, anything
  else the spin branch.
* `reset i`: the leader's `count.store(max, SeqCst)` (lib.rs 186-188).
* `flip i`: the leader's `gsense.store(lsense, SeqCst)` (lib.rs
  189-191) and return of `BarrierWaitResult(true)` (lib.rs 192).
* `spinFail i`: one load of `gsense` (lib.rs 196) observing a value
  other than `lsense`, hence one `wait.spin()` iteration.
* `spinExit i`: a load of `gsense` observing `lsense`; the loop exits
  and the call returns `BarrierWaitResult(false)` (lib.rs 200). -/
def Sys.stepAct (s : Sys) (a : Act) : Option Sys :=
  match a with
  | .arrive i =>
    match s.threads[i]? with
    | some t =>
      if t.pc = .idle then
        some { s with count := wrapDec s.count,
                      threads := s.threads.set i
                        { t with used := true, lsense := !t.lsense,
                                 started := t.started + 1,
                                 pc := if s.count = 1 then .leaderReset
                                       else .spinning } }
      else none
    | none => none
  | .reset i =>
    match s.threads[i]? with
    | some t =>
      if t.pc = .leaderReset then
        some { s with count := s.max,
                      threads := s.threads.set i { t with pc := .leaderFlip } }
      else none
    | none => none
  | .flip i =>
    match s.threads[i]? with
    | some t =>
      if t.pc = .leaderFlip then
        some { s with gsense := t.lsense, flips := s.flips + 1,
                      threads := s.threads.set i
                        { t with pc := .idle, done := t.done + 1,
                                 results := t.results ++ [true] } }
      else none
    | none => none
  | .spinFail i =>
    match s.threads[i]? with
    | some t =>
      if t.pc = .spinning ∧ s.gsense ≠ t.lsense then
        some { s with threads := s.threads.set i { t with spins := t.spins + 1 } }
      else none
    | none => none
  | .spinExit i =>
    match s.threads[i]? with
    | some t =>
      if t.pc = .spinning ∧ s.gsense = t.lsense then
        some { s with threads := s.threads.set i
                        { t with pc := .idle, done := t.done + 1,
                                 results := t.results ++ [false] } }
      else none
    | none => none

/-- Run a list of actions from a state. -/
def Sys.run (s : Sys) : List Act → Option Sys
  | [] => some s
  | a :: rest =>
    match s.stepAct a with
    | some s' => s'.run rest
    | none => none

/-- A fresh handle's private state, as produced by `Barrier::new`
(`used = false`, `lsense = true`) or by cloning such a handle before
first use. -/
def initThread : TState :=
  { lsense := true, used := false, pc := .idle, started := 0, done := 0,
    results := [], spins := 0 }

/-- Initial system: one barrier of capacity `cap` (so
`gsense = true, count = cap, max = cap`, from `Barrier::new`) shared by
`m` fresh handles. -/
def Sys.init (cap m : Nat) : Sys :=
  { gsense := true, count := cap, max := cap,
    threads := List.replicate m initThread, flips := 0 }

/-- The sense value all participants' `lsense` fields hold after `r`
completed flips: `true` initially, toggling each round. -/
def senseOf (r : Nat) : Bool := decide (r % 2 = 0)

/-- Number of handles whose `fetch_sub` for round `F + 1` (the round
after `F` completed flips) has already executed. -/
def arrivedOf (F : Nat) (ts : List TState) : Nat :=
  ts.countP (fun t => decide (t.started = F + 1))

/-- Number of handles whose recorded result for round `r + 1` (index `r`
of `results`) is `leader = true`. -/
def trueAt (r : Nat) (ts : List TState) : Nat :=
  ts.countP (fun t => t.results.getD r false)

/-- Per-handle invariant, relative to the number `F` of completed
`gsense` flips. -/
structure TInv (F : Nat) (t : TState) : Prop where
  ls : t.lsense = senseOf t.started
  us : t.used = decide (1 ≤ t.started)
  rl : t.results.length = t.done
  lo : F ≤ t.started
  hi : t.started ≤ F + 1
  dhi : t.done ≤ F
  idle_eq : t.pc = .idle → t.started = t.done
  busy_eq : t.pc ≠ .idle → t.started = t.done + 1

/-- Global invariant of a capacity-`N` barrier used by `N` handles.  The
`epoch` field distinguishes: (counting) no leader is mid-release and the
counter plus the number of current-round arrivals is `N`; (afterReset
pending, i.e. `leaderReset`) the counter reads 0 and all `N` handles
have arrived; (flip pending, i.e. `leaderFlip`) the counter has been
reset to `N` and all `N` handles have arrived. -/
structure BInv (N : Nat) (s : Sys) : Prop where
  len : s.threads.length = N
  mx : s.max = N
  gs : s.gsense = senseOf s.flips
  tinv : ∀ t ∈ s.threads, TInv s.flips t
  ones : ∀ r, r < s.flips → trueAt r s.threads = 1
  epoch :
    ((∀ t ∈ s.threads, t.pc = .idle ∨ t.pc = .spinning) ∧
       s.count + arrivedOf s.flips s.threads = N) ∨
    (∃ (i : Nat) (t : TState), s.threads[i]? = some t ∧
       t.pc = .leaderReset ∧ s.count = 0 ∧
       arrivedOf s.flips s.threads = N ∧
       ∀ (j : Nat) (u : TState),
         s.threads[j]? = some u → j ≠ i → u.pc = .spinning) ∨
    (∃ (i : Nat) (t : TState), s.threads[i]? = some t ∧
       t.pc = .leaderFlip ∧ s.count = N ∧
       arrivedOf s.flips s.threads = N ∧
       ∀ (j : Nat) (u : TState),
         s.threads[j]? = some u → j ≠ i → u.pc = .spinning)

/-- All `R` rounds are over: every handle is between calls and has
returned from exactly `R` checkpoint calls. -/
def CompletedRounds (R : Nat) (s : Sys) : Prop :=
  ∀ t ∈ s.threads, t.pc = .idle ∧ t.done = R

/-- Handle `i` of an `n`-handle system between rounds, with `r` rounds
completed: in the canonical schedule below, handle `n - 1` is the leader
of every round. -/
def canonT (n r i : Nat) : TState :=
  { lsense := senseOf r, used := decide (1 ≤ r), pc := .idle, started := r,
    done := r, results := List.replicate r (decide (i = n - 1)), spins := 0 }

/-- Handle `i` spinning in round `r + 1` of the canonical schedule. -/
def spinT (n r i : Nat) : TState :=
  { lsense := senseOf (r + 1), used := true, pc := .spinning,
    started := r + 1, done := r,
    results := List.replicate r (decide (i = n - 1)), spins := 0 }

/-- The leader handle (index `n - 1`) of round `r + 1` of the canonical
schedule, at program point `p`. -/
def ldrT (r : Nat) (p : Pc) : TState :=
  { lsense := senseOf (r + 1), used := true, pc := p, started := r + 1,
    done := r, results := List.replicate r true, spins := 0 }

/-- Quiescent state of the canonical schedule after `r` full rounds. -/
def canonical (n r : Nat) : Sys :=
  { gsense := senseOf r, count := n, max := n, flips := r,
    threads := (List.range n).map (canonT n r) }

/-- State of the canonical schedule in round `r + 1` after the first `j`
handles have arrived. -/
def arrState (n r j : Nat) : Sys :=
  { gsense := senseOf r, count := n - j, max := n, flips := r,
    threads := (List.range n).map
      (fun i => if i < j then spinT n r i else canonT n r i) }

/-- State of the canonical schedule in round `r + 1` after all `n`
handles have arrived, while the leader is mid-release at point `p` and
the counter reads `c`. -/
def midState (n r : Nat) (p : Pc) (c : Nat) : Sys :=
  { gsense := senseOf r, count := c, max := n, flips := r,
    threads := (List.range n).map
      (fun i => if i < n - 1 then spinT n r i else ldrT r p) }

/-- State of the canonical schedule after the round-`r + 1` flip, with
the first `j` spinners already released. -/
def exitState (n r j : Nat) : Sys :=
  { gsense := senseOf (r + 1), count := n, max := n, flips := r + 1,
    threads := (List.range n).map
      (fun i => if i < j then canonT n (r + 1) i
                else if i < n - 1 then spinT n r i else canonT n (r + 1) i) }

/-- The canonical schedule for one full round of `n` handles: all `n`
arrive in index order (handle `n - 1` therefore empties the counter and
becomes leader), the leader resets and flips, then the `n - 1` spinners
are released in index order. -/
def roundActs (n : Nat) : List Act :=
  ((List.range n).map Act.arrive) ++
    (Act.reset (n - 1) :: Act.flip (n - 1) ::
      ((List.range (n - 1)).map Act.spinExit))

/-- `R` repetitions of the canonical round schedule. -/
def roundsActs (n : Nat) : Nat → List Act
  | 0 => []
  | R + 1 => roundsActs n R ++ roundActs n

/-! ### List helper lemmas -/

theorem getElem?_set_self {α : Type} (l : List α) (i : Nat) (a : α)
    (h : i < l.length) : (l.set i a)[i]? = some a := by
  simp [List.getElem?_set_self', List.getElem?_eq_getElem h]

theorem countP_set_comm {α : Type} (p : α → Bool) (l : List α) (i : Nat)
    (a b : α) (h : l[i]? = some a) :
    (l.set i b).countP p + (if p a then 1 else 0)
      = l.countP p + (if p b then 1 else 0) := by
  induction l generalizing i with
  | nil => simp at h
  | cons x xs ih =>
    cases i with
    | zero =>
      simp only [List.getElem?_cons_zero, Option.some_inj] at h
      subst h
      simp only [List.set_cons_zero, List.countP_cons]
      omega
    | succ j =>
      simp only [List.getElem?_cons_succ] at h
      simp only [List.set_cons_succ, List.countP_cons]
      have := ih j h
      omega

theorem countP_lt_length_of_not {α : Type} (p : α → Bool) (l : List α)
    (i : Nat) (a : α) (h : l[i]? = some a) (hp : ¬ p a) :
    l.countP p < l.length := by
  rcases Nat.lt_or_ge (l.countP p) l.length with h' | h'
  · exact h'
  · exfalso
    have hm : a ∈ l := List.getElem?_mem h
    have : l.countP p = l.length :=
      Nat.le_antisymm (List.countP_le_length p) h'
    exact hp (List.countP_eq_length.mp this a hm)

theorem map_range_set {α : Type} (n j : Nat) (f : Nat → α) (x : α)
    (h : j < n) :
    ((List.range n).map f).set j x
      = (List.range n).map (fun i => if i = j then x else f i) := by
  apply List.ext_getElem?
  intro k
  rcases Nat.lt_or_ge k n with hk | hk
  · rcases eq_or_ne k j with rfl | hkj
    · rw [getElem?_set_self _ _ _ (by simpa using h)]
      simp [List.getElem?_map, List.getElem?_range hk]
    · rw [List.getElem?_set_ne (fun hh => hkj hh.symm)]
      simp [List.getElem?_map, List.getElem?_range hk, hkj]
  · have h1 : ((List.range n).map f).length ≤ k := by simpa using hk
    have h2 : ((List.range n).map fun i => if i = j then x else f i).length ≤ k := by
      simpa using hk
    rw [List.getElem?_eq_none (by simpa using h1), List.getElem?_eq_none (by simpa using h2)]

theorem map_range_congr {α : Type} (n : Nat) (f g : Nat → α)
    (h : ∀ i, i < n → f i = g i) :
    (List.range n).map f = (List.range n).map g :=
  List.map_congr_left (fun i hi => h i (List.mem_range.mp hi))

theorem getD_concat_lt (l : List Bool) (x : Bool) (r : Nat) (d : Bool)
    (h : r < l.length) : (l ++ [x]).getD r d = l.getD r d := by
  rw [List.getD_eq_getElem?_getD, List.getD_eq_getElem?_getD,
    List.getElem?_append_left h]

theorem getD_concat_self (l : List Bool) (x : Bool) (d : Bool) :
    (l ++ [x]).getD l.length d = x := by
  rw [List.getD_eq_getElem?_getD, List.getElem?_concat_length]
  rfl

/-! ### Step characterization lemmas -/

theorem stepAct_arrive_eq {s : Sys} {i : Nat} {s' : Sys}
    (h : s.stepAct (.arrive i) = some s') :
    ∃ t, s.threads[i]? = some t ∧ t.pc = .idle ∧
      s' = { s with count := wrapDec s.count,
                    threads := s.threads.set i
                      { t with used := true, lsense := !t.lsense,
                               started := t.started + 1,
                               pc := if s.count = 1 then .leaderReset
                                     else .spinning } } := by
  simp only [Sys.stepAct] at h
  cases ht : s.threads[i]? with
  | none => simp only [ht] at h; exact absurd h (by simp)
  | some t =>
    simp only [ht] at h
    by_cases hpc : t.pc = .idle
    · rw [if_pos hpc] at h
      exact ⟨t, rfl, hpc, (Option.some_inj.mp h).symm⟩
    · rw [if_neg hpc] at h; exact absurd h (by simp)

theorem stepAct_reset_eq {s : Sys} {i : Nat} {s' : Sys}
    (h : s.stepAct (.reset i) = some s') :
    ∃ t, s.threads[i]? = some t ∧ t.pc = .leaderReset ∧
      s' = { s with count := s.max,
                    threads := s.threads.set i { t with pc := .leaderFlip } } := by
  simp only [Sys.stepAct] at h
  cases ht : s.threads[i]? with
  | none => simp only [ht] at h; exact absurd h (by simp)
  | some t =>
    simp only [ht] at h
    by_cases hpc : t.pc = .leaderReset
    · rw [if_pos hpc] at h
      exact ⟨t, rfl, hpc, (Option.some_inj.mp h).symm⟩
    · rw [if_neg hpc] at h; exact absurd h (by simp)

theorem stepAct_flip_eq {s : Sys} {i : Nat} {s' : Sys}
    (h : s.stepAct (.flip i) = some s') :
    ∃ t, s.threads[i]? = some t ∧ t.pc = .leaderFlip ∧
      s' = { s with gsense := t.lsense, flips := s.flips + 1,
                    threads := s.threads.set i
                      { t with pc := .idle, done := t.done + 1,
                               results := t.results ++ [true] } } := by
  simp only [Sys.stepAct] at h
  cases ht : s.threads[i]? with
  | none => simp only [ht] at h; exact absurd h (by simp)
  | some t =>
    simp only [ht] at h
    by_cases hpc : t.pc = .leaderFlip
    · rw [if_pos hpc] at h
      exact ⟨t, rfl, hpc, (Option.some_inj.mp h).symm⟩
    · rw [if_neg hpc] at h; exact absurd h (by simp)

theorem stepAct_spinFail_eq {s : Sys} {i : Nat} {s' : Sys}
    (h : s.stepAct (.spinFail i) = some s') :
    ∃ t, s.threads[i]? = some t ∧ t.pc = .spinning ∧ s.gsense ≠ t.lsense ∧
      s' = { s with threads := s.threads.set i { t with spins := t.spins + 1 } } := by
  simp only [Sys.stepAct] at h
  cases ht : s.threads[i]? with
  | none => simp only [ht] at h; exact absurd h (by simp)
  | some t =>
    simp only [ht] at h
    by_cases hpc : t.pc = .spinning ∧ s.gsense ≠ t.lsense
    · rw [if_pos hpc] at h
      exact ⟨t, rfl, hpc.1, hpc.2, (Option.some_inj.mp h).symm⟩
    · rw [if_neg hpc] at h; exact absurd h (by simp)

theorem stepAct_spinExit_eq {s : Sys} {i : Nat} {s' : Sys}
    (h : s.stepAct (.spinExit i) = some s') :
    ∃ t, s.threads[i]? = some t ∧ t.pc = .spinning ∧ s.gsense = t.lsense ∧
      s' = { s with threads := s.threads.set i
                      { t with pc := .idle, done := t.done + 1,
                               results := t.results ++ [false] } } := by
  simp only [Sys.stepAct] at h
  cases ht : s.threads[i]? with
  | none => simp only [ht] at h; exact absurd h (by simp)
  | some t =>
    simp only [ht] at h
    by_cases hpc : t.pc = .spinning ∧ s.gsense = t.lsense
    · rw [if_pos hpc] at h
      exact ⟨t, rfl, hpc.1, hpc.2, (Option.some_inj.mp h).symm⟩
    · rw [if_neg hpc] at h; exact absurd h (by simp)

/-- Induction principle over runs: a property preserved by every enabled
step holds at the end of every successful run from a state satisfying
it. -/
theorem run_preserves (P : Sys → Prop)
    (hstep : ∀ s a s', P s → Sys.stepAct s a = some s' → P s') :
    ∀ (acts : List Act) (s s' : Sys), P s → Sys.run s acts = some s' → P s' := by
  intro acts
  induction acts with
  | nil => intro s s' hP h; simp only [Sys.run, Option.some_inj] at h; exact h ▸ hP
  | cons a rest ih =>
    intro s s' hP h
    unfold Sys.run at h
    cases hs : s.stepAct a with
    | none => rw [hs] at h; exact absurd h (by simp)
    | some s₁ =>
      rw [hs] at h
      exact ih s₁ s' (hstep s a s₁ hP hs) h

theorem run_cons (s s₂ : Sys) (a : Act) (l : List Act)
    (h : s.stepAct a = some s₂) : Sys.run s (a :: l) = Sys.run s₂ l := by
  simp only [Sys.run, h]

theorem run_append (s : Sys) (l₁ l₂ : List Act) (s₁ : Sys)
    (h : Sys.run s l₁ = some s₁) :
    Sys.run s (l₁ ++ l₂) = Sys.run s₁ l₂ := by
  induction l₁ generalizing s with
  | nil => simp only [Sys.run, Option.some_inj] at h; simp [h]
  | cons a rest ih =>
    cases hs : s.stepAct a with
    | none => simp only [Sys.run, hs] at h; exact absurd h (by simp)
    | some s₂ =>
      rw [run_cons s s₂ a rest hs] at h
      rw [List.cons_append, run_cons s s₂ a (rest ++ l₂) hs]
      exact ih s₂ h

/-! ### Auxiliary invariant lemmas -/

theorem lt_length_of_getElem? {α : Type} {l : List α} {i : Nat} {a : α}
    (h : l[i]? = some a) : i < l.length := by
  by_contra hh
  rw [List.getElem?_eq_none (Nat.le_of_not_lt hh)] at h
  exact absurd h (by simp)

theorem forall_mem_set {α : Type} {P : α → Prop} {l : List α} {i : Nat}
    {b : α} (hall : ∀ u ∈ l, P u) (hnew : P b) : ∀ u ∈ l.set i b, P u :=
  fun u hu => (List.mem_or_eq_of_mem_set hu).elim (hall u) (fun he => he ▸ hnew)

theorem senseOf_succ (r : Nat) : senseOf (r + 1) = !senseOf r := by
  unfold senseOf
  rcases Nat.even_or_odd r with h | h
  · have h0 : r % 2 = 0 := Nat.even_iff.mp h
    have h1 : (r + 1) % 2 = 1 := by omega
    simp [h0, h1]
  · have h0 : r % 2 = 1 := Nat.odd_iff.mp h
    have h1 : (r + 1) % 2 = 0 := by omega
    simp [h0, h1]

theorem senseOf_ne_succ (r : Nat) : senseOf r ≠ senseOf (r + 1) := by
  rw [senseOf_succ]
  cases senseOf r <;> simp

theorem all_arrived {F N : Nat} {ts : List TState} (hlen : ts.length = N)
    (h : arrivedOf F ts = N) : ∀ t ∈ ts, t.started = F + 1 := by
  intro t ht
  have hc : ts.countP (fun t => decide (t.started = F + 1)) = ts.length := by
    rw [arrivedOf] at h; omega
  have := List.countP_eq_length.mp hc t ht
  simpa using this

theorem arrived_done {F : Nat} {t : TState} (hT : TInv F t)
    (hs : t.started = F + 1) : t.pc ≠ .idle ∧ t.done = F := by
  have hne : t.pc ≠ .idle := by
    intro hpc
    have h1 := hT.idle_eq hpc
    have h2 := hT.dhi
    omega
  have h3 := hT.busy_eq hne
  exact ⟨hne, by omega⟩

theorem trueAt_set_same (r : Nat) (ts : List TState) (i : Nat) (t t' : TState)
    (ht : ts[i]? = some t) (he : t'.results = t.results) :
    trueAt r (ts.set i t') = trueAt r ts := by
  have hc := countP_set_comm (fun u => u.results.getD r false) ts i t t' ht
  simp only [he] at hc
  unfold trueAt
  omega

theorem arrivedOf_set_same (F : Nat) (ts : List TState) (i : Nat)
    (t t' : TState) (ht : ts[i]? = some t) (he : t'.started = t.started) :
    arrivedOf F (ts.set i t') = arrivedOf F ts := by
  have hc := countP_set_comm (fun u => decide (u.started = F + 1)) ts i t t' ht
  simp only [he] at hc
  unfold arrivedOf
  omega

theorem countP_set_inc (p : TState → Bool) (l : List TState) (i : Nat)
    (a b : TState) (h : l[i]? = some a) (hpa : p a = false)
    (hpb : p b = true) : (l.set i b).countP p = l.countP p + 1 := by
  have hc := countP_set_comm p l i a b h
  rw [hpa, hpb] at hc
  simp at hc
  omega

theorem binv_step_reset {N : Nat} {s s' : Sys} {i : Nat}
    (hI : BInv N s) (h : s.stepAct (.reset i) = some s') : BInv N s' := by
  obtain ⟨t, ht, hpc, rfl⟩ := stepAct_reset_eq h
  have hmem : t ∈ s.threads := List.getElem?_mem ht
  have hT := hI.tinv t hmem
  have hoth : ∀ (j : Nat) (u : TState),
      s.threads[j]? = some u → j ≠ i → u.pc = .spinning := by
    rcases hI.epoch with ⟨hA, _⟩ | ⟨j, u, hj, hupc, _, _, hoth⟩
        | ⟨j, u, hj, hupc, _, _, hoth⟩
    · rcases hA t hmem with h1 | h1 <;> rw [hpc] at h1 <;> exact absurd h1 (by simp)
    · rcases eq_or_ne j i with rfl | hne
      · exact fun k v hk hki => hoth k v hk hki
      · have := hoth i t ht (Ne.symm hne)
        rw [hpc] at this
        exact absurd this (by simp)
    · rcases eq_or_ne j i with rfl | hne
      · rw [ht] at hj
        obtain rfl : u = t := (Option.some_inj.mp hj).symm
        rw [hpc] at hupc
        exact absurd hupc (by simp)
      · have := hoth i t ht (Ne.symm hne)
        rw [hpc] at this
        exact absurd this (by simp)
  have harr : arrivedOf s.flips s.threads = N := by
    rcases hI.epoch with ⟨hA, _⟩ | ⟨j, u, hj, hupc, _, harr, _⟩
        | ⟨j, u, hj, hupc, _, harr, _⟩
    · rcases hA t hmem with h1 | h1 <;> rw [hpc] at h1 <;> exact absurd h1 (by simp)
    · exact harr
    · exact harr
  refine ⟨?_, hI.mx, hI.gs, ?_, ?_, ?_⟩
  · simpa [List.length_set] using hI.len
  · exact forall_mem_set hI.tinv
      ⟨hT.ls, hT.us, hT.rl, hT.lo, hT.hi, hT.dhi,
       fun hh => absurd hh (by simp),
       fun _ => hT.busy_eq (by rw [hpc]; simp)⟩
  · intro r hr
    rw [trueAt_set_same r s.threads i t { t with pc := .leaderFlip } ht rfl]
    exact hI.ones r hr
  · refine Or.inr (Or.inr ⟨i, { t with pc := .leaderFlip },
      getElem?_set_self _ _ _ (lt_length_of_getElem? ht), rfl, hI.mx, ?_, ?_⟩)
    · rw [arrivedOf_set_same s.flips s.threads i t { t with pc := .leaderFlip }
        ht rfl]
      exact harr
    · intro j u hj hji
      rw [List.getElem?_set_ne (Ne.symm hji)] at hj
      exact hoth j u hj hji

theorem binv_step_spinFail {N : Nat} {s s' : Sys} {i : Nat}
    (hI : BInv N s) (h : s.stepAct (.spinFail i) = some s') : BInv N s' := by
  obtain ⟨t, ht, hpc, hgs, rfl⟩ := stepAct_spinFail_eq h
  have hmem : t ∈ s.threads := List.getElem?_mem ht
  have hT := hI.tinv t hmem
  have hlt := lt_length_of_getElem? ht
  refine ⟨?_, hI.mx, hI.gs, ?_, ?_, ?_⟩
  · simpa [List.length_set] using hI.len
  · exact forall_mem_set hI.tinv
      ⟨hT.ls, hT.us, hT.rl, hT.lo, hT.hi, hT.dhi, hT.idle_eq, hT.busy_eq⟩
  · intro r hr
    rw [trueAt_set_same r s.threads i t { t with spins := t.spins + 1 } ht rfl]
    exact hI.ones r hr
  · rcases hI.epoch with ⟨hA, hcnt⟩ | ⟨j, u, hj, hupc, hcnt, harr, hoth⟩
        | ⟨j, u, hj, hupc, hcnt, harr, hoth⟩
    · refine Or.inl ⟨forall_mem_set hA (Or.inr hpc), ?_⟩
      rw [arrivedOf_set_same s.flips s.threads i t { t with spins := t.spins + 1 }
        ht rfl]
      exact hcnt
    · refine Or.inr (Or.inl ⟨j, u, ?_, hupc, hcnt, ?_, ?_⟩)
      · have hij : i ≠ j := by
          intro hh
          subst hh
          rw [ht] at hj
          obtain rfl : u = t := (Option.some_inj.mp hj).symm
          rw [hpc] at hupc
          exact absurd hupc (by simp)
        rw [List.getElem?_set_ne hij]
        exact hj
      · rw [arrivedOf_set_same s.flips s.threads i t
          { t with spins := t.spins + 1 } ht rfl]
        exact harr
      · intro k v hk hkj
        rcases eq_or_ne k i with rfl | hki
        · rw [getElem?_set_self _ _ _ hlt] at hk
          obtain rfl : v = { t with spins := t.spins + 1 } :=
            (Option.some_inj.mp hk).symm
          exact hpc
        · rw [List.getElem?_set_ne (Ne.symm hki)] at hk
          exact hoth k v hk hkj
    · refine Or.inr (Or.inr ⟨j, u, ?_, hupc, hcnt, ?_, ?_⟩)
      · have hij : i ≠ j := by
          intro hh
          subst hh
          rw [ht] at hj
          obtain rfl : u = t := (Option.some_inj.mp hj).symm
          rw [hpc] at hupc
          exact absurd hupc (by simp)
        rw [List.getElem?_set_ne hij]
        exact hj
      · rw [arrivedOf_set_same s.flips s.threads i t
          { t with spins := t.spins + 1 } ht rfl]
        exact harr
      · intro k v hk hkj
        rcases eq_or_ne k i with rfl | hki
        · rw [getElem?_set_self _ _ _ hlt] at hk
          obtain rfl : v = { t with spins := t.spins + 1 } :=
            (Option.some_inj.mp hk).symm
          exact hpc
        · rw [List.getElem?_set_ne (Ne.symm hki)] at hk
          exact hoth k v hk hkj

theorem getElem?_of_mem {α : Type} {l : List α} {a : α} (h : a ∈ l) :
    ∃ i : Nat, l[i]? = some a := by
  obtain ⟨i, hi, he⟩ := List.mem_iff_getElem.mp h
  exact ⟨i, by rw [List.getElem?_eq_getElem hi, he]⟩

theorem forall_mem_set_index {α : Type} {P : α → Prop} {ts : List α}
    {i : Nat} {b : α} (hlt : i < ts.length) (hnew : P b)
    (hold : ∀ (j : Nat) (u : α), ts[j]? = some u → j ≠ i → P u) :
    ∀ u ∈ ts.set i b, P u := by
  intro u hu
  obtain ⟨j, hj⟩ := getElem?_of_mem hu
  rcases eq_or_ne j i with rfl | hne
  · rw [getElem?_set_self _ _ _ hlt] at hj
    obtain rfl : u = b := (Option.some_inj.mp hj).symm
    exact hnew
  · rw [List.getElem?_set_ne (Ne.symm hne)] at hj
    exact hold j u hj hne

theorem getD_concat_default (l : List Bool) (d : Bool) (r : Nat) :
    (l ++ [d]).getD r d = l.getD r d := by
  rcases Nat.lt_or_ge r l.length with hr | hr
  · exact getD_concat_lt l d r d hr
  · rcases Nat.eq_or_lt_of_le hr with rfl | hr'
    · rw [getD_concat_self, List.getD_eq_default l d (Nat.le_refl _)]
    · rw [List.getD_eq_default l d hr,
        List.getD_eq_default (l ++ [d]) d (by simp; omega)]

theorem wrapDec_eq (c : Nat) (h1 : 1 ≤ c) (h2 : c < USIZE) :
    wrapDec c = c - 1 := by
  have hU : 0 < USIZE := Nat.two_pow_pos 64
  unfold wrapDec
  have h3 : c + (USIZE - 1) = (c - 1) + USIZE := by omega
  rw [h3, Nat.add_mod_right, Nat.mod_eq_of_lt (by omega)]

theorem binv_step_flip {N : Nat} {s s' : Sys} {i : Nat}
    (hI : BInv N s) (h : s.stepAct (.flip i) = some s') : BInv N s' := by
  obtain ⟨t, ht, hpc, rfl⟩ := stepAct_flip_eq h
  have hmem : t ∈ s.threads := List.getElem?_mem ht
  have hT := hI.tinv t hmem
  have hlt := lt_length_of_getElem? ht
  obtain ⟨hcnt, harr, hoth⟩ :
      s.count = N ∧ arrivedOf s.flips s.threads = N ∧
        (∀ (j : Nat) (u : TState), s.threads[j]? = some u → j ≠ i →
          u.pc = .spinning) := by
    rcases hI.epoch with ⟨hA, _⟩ | ⟨j, u, hj, hupc, _, _, hoth⟩
        | ⟨j, u, hj, hupc, hcnt, harr, hoth⟩
    · rcases hA t hmem with h1 | h1 <;> rw [hpc] at h1 <;> exact absurd h1 (by simp)
    · rcases eq_or_ne j i with rfl | hne
      · rw [ht] at hj
        obtain rfl : u = t := (Option.some_inj.mp hj).symm
        rw [hpc] at hupc
        exact absurd hupc (by simp)
      · have := hoth i t ht (Ne.symm hne)
        rw [hpc] at this
        exact absurd this (by simp)
    · rcases eq_or_ne j i with rfl | hne
      · rw [ht] at hj
        obtain rfl : u = t := (Option.some_inj.mp hj).symm
        exact ⟨hcnt, harr, hoth⟩
      · have := hoth i t ht (Ne.symm hne)
        rw [hpc] at this
        exact absurd this (by simp)
  have hall : ∀ u ∈ s.threads, u.started = s.flips + 1 := all_arrived hI.len harr
  have hts : t.started = s.flips + 1 := hall t hmem
  have htdone : t.done = s.flips := (arrived_done hT hts).2
  have hreslen : t.results.length = s.flips := by rw [hT.rl, htdone]
  refine ⟨?_, ?_, ?_, ?_, ?_, ?_⟩ <;> dsimp only
  · simpa [List.length_set] using hI.len
  · exact hI.mx
  · rw [hT.ls, hts]
  · refine forall_mem_set ?_ ?_
    · intro u hu
      have hU := hI.tinv u hu
      have hus := hall u hu
      have hud := (arrived_done hU hus).2
      exact ⟨hU.ls, hU.us, hU.rl, by omega, by omega, by omega,
        hU.idle_eq, hU.busy_eq⟩
    · refine ⟨hT.ls, hT.us, by simp [hT.rl], ?_, ?_, ?_, ?_, ?_⟩ <;> dsimp only
      · omega
      · omega
      · omega
      · intro _; omega
      · intro hh; exact absurd rfl hh
  · intro r hr
    rcases Nat.lt_or_ge r s.flips with hrF | hrF
    · have hc := countP_set_comm (fun u => u.results.getD r false) s.threads i t { t with pc := .idle, done := t.done + 1, results := t.results ++ [true] } ht
      have he : (t.results ++ [true]).getD r false = t.results.getD r false :=
        getD_concat_lt t.results true r false (by omega)
      simp only [he] at hc
      have := hI.ones r hrF
      unfold trueAt at this ⊢
      omega
    · have hrF' : r = s.flips := by omega
      subst hrF'
      have hzero : trueAt s.flips s.threads = 0 := by
        unfold trueAt
        rw [List.countP_eq_zero]
        intro u hu
        have hU := hI.tinv u hu
        have hud := (arrived_done hU (hall u hu)).2
        have hx : u.results[s.flips]? = none := by
          apply List.getElem?_eq_none
          have h1 := hU.rl
          omega
        simp [hx]
      have hone : (t.results ++ [true]).getD s.flips false = true := by
        have hx := getD_concat_self t.results true false
        rw [hreslen] at hx
        exact hx
      have hzt : t.results.getD s.flips false = false :=
        List.getD_eq_default t.results false (by rw [hreslen])
      have hinc := countP_set_inc (fun u => u.results.getD s.flips false)
        s.threads i t { t with pc := .idle, done := t.done + 1, results := t.results ++ [true] } ht hzt hone
      unfold trueAt at hzero ⊢
      rw [hinc, hzero]
  · refine Or.inl ⟨?_, ?_⟩
    · refine forall_mem_set_index hlt (Or.inl rfl) ?_
      intro j u hj hji
      exact Or.inr (hoth j u hj hji)
    · have hz : arrivedOf (s.flips + 1) (s.threads.set i { t with pc := .idle, done := t.done + 1, results := t.results ++ [true] }) = 0 := by
        unfold arrivedOf
        rw [List.countP_eq_zero]
        intro u hu
        rcases List.mem_or_eq_of_mem_set hu with hu' | rfl
        · have := hall u hu'
          simp [this]
        · simp [hts]
      rw [hz, hcnt]
      omega

theorem binv_step_spinExit {N : Nat} {s s' : Sys} {i : Nat}
    (hI : BInv N s) (h : s.stepAct (.spinExit i) = some s') : BInv N s' := by
  obtain ⟨t, ht, hpc, hgs, rfl⟩ := stepAct_spinExit_eq h
  have hmem : t ∈ s.threads := List.getElem?_mem ht
  have hT := hI.tinv t hmem
  have hne_idle : t.pc ≠ .idle := by rw [hpc]; simp
  have hsd := hT.busy_eq hne_idle
  have hstarted : t.started = s.flips := by
    by_contra hne
    have h1 : t.started = s.flips + 1 := by
      have h2 := hT.lo
      have h3 := hT.hi
      omega
    have h2 : senseOf s.flips = senseOf (s.flips + 1) := by
      rw [← hI.gs, hgs, hT.ls, h1]
    exact senseOf_ne_succ _ h2
  obtain ⟨hA, hcnt⟩ :
      (∀ u ∈ s.threads, u.pc = .idle ∨ u.pc = .spinning) ∧
        s.count + arrivedOf s.flips s.threads = N := by
    rcases hI.epoch with hA | ⟨j, u, hj, hupc, _, harr, _⟩
        | ⟨j, u, hj, hupc, _, harr, _⟩
    · exact hA
    · have := all_arrived hI.len harr t hmem
      omega
    · have := all_arrived hI.len harr t hmem
      omega
  refine ⟨?_, ?_, ?_, ?_, ?_, ?_⟩ <;> dsimp only
  · simpa [List.length_set] using hI.len
  · exact hI.mx
  · exact hI.gs
  · refine forall_mem_set hI.tinv ?_
    refine ⟨hT.ls, hT.us, by simp [hT.rl], ?_, ?_, ?_, ?_, ?_⟩ <;> dsimp only
    · omega
    · omega
    · omega
    · intro _; omega
    · intro hh; exact absurd rfl hh
  · intro r hr
    have hc := countP_set_comm (fun u => u.results.getD r false) s.threads i t { t with pc := .idle, done := t.done + 1, results := t.results ++ [false] } ht
    have he : (t.results ++ [false]).getD r false = t.results.getD r false :=
      getD_concat_default t.results false r
    simp only [he] at hc
    have := hI.ones r hr
    unfold trueAt at this ⊢
    omega
  · refine Or.inl ⟨forall_mem_set hA (Or.inl rfl), ?_⟩
    rw [arrivedOf_set_same s.flips s.threads i t { t with pc := .idle, done := t.done + 1, results := t.results ++ [false] } ht rfl]
    exact hcnt

theorem binv_step_arrive {N : Nat} (hN : 1 ≤ N) (hU : N < USIZE)
    {s s' : Sys} {i : Nat}
    (hI : BInv N s) (h : s.stepAct (.arrive i) = some s') : BInv N s' := by
  obtain ⟨t, ht, hpc, rfl⟩ := stepAct_arrive_eq h
  have hmem : t ∈ s.threads := List.getElem?_mem ht
  have hT := hI.tinv t hmem
  have hlt := lt_length_of_getElem? ht
  have hstarted : t.started = s.flips := by
    have h1 := hT.idle_eq hpc
    have h2 := hT.lo
    have h3 := hT.dhi
    omega
  have hdone : t.done = s.flips := by
    have h1 := hT.idle_eq hpc
    omega
  obtain ⟨hA, hcnt⟩ :
      (∀ u ∈ s.threads, u.pc = .idle ∨ u.pc = .spinning) ∧
        s.count + arrivedOf s.flips s.threads = N := by
    rcases hI.epoch with hA | ⟨j, u, hj, hupc, _, harr, _⟩
        | ⟨j, u, hj, hupc, _, harr, _⟩
    · exact hA
    · have := all_arrived hI.len harr t hmem
      omega
    · have := all_arrived hI.len harr t hmem
      omega
  have harr_lt : arrivedOf s.flips s.threads < N := by
    have hcc := countP_lt_length_of_not
      (fun u => decide (u.started = s.flips + 1)) s.threads i t ht
      (by simp [hstarted])
    rw [hI.len] at hcc
    unfold arrivedOf
    exact hcc
  have hcpos : 1 ≤ s.count := by omega
  have hclt : s.count < USIZE := by omega
  have hdec : wrapDec s.count = s.count - 1 := wrapDec_eq s.count hcpos hclt
  have hinc := countP_set_inc (fun u => decide (u.started = s.flips + 1))
    s.threads i t { t with used := true, lsense := !t.lsense, started := t.started + 1, pc := if s.count = 1 then .leaderReset else .spinning } ht
    (by simp [hstarted]) (by simp [hstarted])
  refine ⟨?_, ?_, ?_, ?_, ?_, ?_⟩ <;> dsimp only
  · simpa [List.length_set] using hI.len
  · exact hI.mx
  · exact hI.gs
  · refine forall_mem_set hI.tinv ?_
    refine ⟨?_, ?_, hT.rl, ?_, ?_, ?_, ?_, ?_⟩ <;> dsimp only
    · rw [hT.ls, senseOf_succ]
    · simp
    · omega
    · omega
    · omega
    · intro hh
      rcases eq_or_ne s.count 1 with hc | hc <;> simp [hc] at hh
    · intro _
      have h1 := hT.idle_eq hpc
      omega
  · intro r hr
    rw [trueAt_set_same r s.threads i t { t with used := true, lsense := !t.lsense, started := t.started + 1, pc := if s.count = 1 then .leaderReset else .spinning } ht rfl]
    exact hI.ones r hr
  · rcases eq_or_ne s.count 1 with hc | hc
    · refine Or.inr (Or.inl ⟨i, { t with used := true, lsense := !t.lsense, started := t.started + 1, pc := if s.count = 1 then .leaderReset else .spinning }, getElem?_set_self _ _ _ hlt, by simp [hc], by rw [hc] at hdec ⊢; omega, ?_, ?_⟩)
      · unfold arrivedOf at hcnt ⊢
        rw [hinc]
        omega
      · intro j u hj hji
        rw [List.getElem?_set_ne (Ne.symm hji)] at hj
        have humem : u ∈ s.threads := List.getElem?_mem hj
        have hall' : arrivedOf s.flips (s.threads.set i { t with used := true, lsense := !t.lsense, started := t.started + 1, pc := if s.count = 1 then .leaderReset else .spinning }) = N := by
          unfold arrivedOf at hcnt ⊢
          rw [hinc]
          omega
        have humem' : u ∈ s.threads.set i { t with used := true, lsense := !t.lsense, started := t.started + 1, pc := if s.count = 1 then .leaderReset else .spinning } := by
          have hj' : (s.threads.set i { t with used := true, lsense := !t.lsense, started := t.started + 1, pc := if s.count = 1 then .leaderReset else .spinning })[j]? = some u := by
            rw [List.getElem?_set_ne (Ne.symm hji)]
            exact hj
          exact List.getElem?_mem hj'
        have hus : u.started = s.flips + 1 :=
          all_arrived (by simpa [List.length_set] using hI.len) hall' u humem'
        have hnidle := (arrived_done (hI.tinv u humem) hus).1
        rcases hA u humem with h1 | h1
        · exact absurd h1 hnidle
        · exact h1
    · refine Or.inl ⟨?_, ?_⟩
      · refine forall_mem_set hA (Or.inr ?_)
        simp [hc]
      · unfold arrivedOf at hcnt ⊢
        rw [hinc, hdec]
        omega

theorem binv_step {N : Nat} (hN : 1 ≤ N) (hU : N < USIZE) :
    ∀ (s : Sys) (a : Act) (s' : Sys),
      BInv N s → s.stepAct a = some s' → BInv N s' := by
  intro s a s' hI h
  cases a with
  | arrive i => exact binv_step_arrive hN hU hI h
  | reset i => exact binv_step_reset hI h
  | flip i => exact binv_step_flip hI h
  | spinFail i => exact binv_step_spinFail hI h
  | spinExit i => exact binv_step_spinExit hI h

theorem binv_init (N : Nat) : BInv N (Sys.init N N) := by
  refine ⟨?_, rfl, ?_, ?_, ?_, ?_⟩ <;> dsimp only [Sys.init]
  · simp
  · rfl
  · intro t ht
    obtain rfl : t = initThread := List.eq_of_mem_replicate ht
    exact ⟨rfl, rfl, rfl, Nat.le_refl 0, Nat.zero_le 1, Nat.le_refl 0,
      fun _ => rfl, fun hh => absurd rfl hh⟩
  · intro r hr
    omega
  · refine Or.inl ⟨?_, ?_⟩
    · intro t ht
      obtain rfl : t = initThread := List.eq_of_mem_replicate ht
      exact Or.inl rfl
    · have hz : arrivedOf 0 (List.replicate N initThread) = 0 := by
        unfold arrivedOf
        rw [List.countP_eq_zero]
        intro u hu
        obtain rfl : u = initThread := List.eq_of_mem_replicate hu
        simp [initThread]
      rw [hz]
      omega

theorem binv_run {N : Nat} (hN : 1 ≤ N) (hU : N < USIZE) (acts : List Act)
    (s : Sys) (h : Sys.run (Sys.init N N) acts = some s) : BInv N s :=
  run_preserves (BInv N) (binv_step hN hU) acts _ s (binv_init N) h

/-! ### Forward step lemmas for concrete schedules -/

theorem stepAct_arrive_spec (s : Sys) (i : Nat) (t : TState)
    (ht : s.threads[i]? = some t) (hpc : t.pc = .idle) :
    s.stepAct (.arrive i) = some { s with count := wrapDec s.count, threads := s.threads.set i { t with used := true, lsense := !t.lsense, started := t.started + 1, pc := if s.count = 1 then .leaderReset else .spinning } } := by
  simp only [Sys.stepAct, ht, if_pos hpc]

theorem stepAct_reset_spec (s : Sys) (i : Nat) (t : TState)
    (ht : s.threads[i]? = some t) (hpc : t.pc = .leaderReset) :
    s.stepAct (.reset i) = some { s with count := s.max, threads := s.threads.set i { t with pc := .leaderFlip } } := by
  simp only [Sys.stepAct, ht, if_pos hpc]

theorem stepAct_flip_spec (s : Sys) (i : Nat) (t : TState)
    (ht : s.threads[i]? = some t) (hpc : t.pc = .leaderFlip) :
    s.stepAct (.flip i) = some { s with gsense := t.lsense, flips := s.flips + 1, threads := s.threads.set i { t with pc := .idle, done := t.done + 1, results := t.results ++ [true] } } := by
  simp only [Sys.stepAct, ht, if_pos hpc]

theorem stepAct_spinExit_spec (s : Sys) (i : Nat) (t : TState)
    (ht : s.threads[i]? = some t) (hpc : t.pc = .spinning)
    (hg : s.gsense = t.lsense) :
    s.stepAct (.spinExit i) = some { s with threads := s.threads.set i { t with pc := .idle, done := t.done + 1, results := t.results ++ [false] } } := by
  have hcond : t.pc = Pc.spinning ∧ s.gsense = t.lsense := ⟨hpc, hg⟩
  simp only [Sys.stepAct, ht, if_pos hcond]

theorem getElem?_map_range {α : Type} (n j : Nat) (f : Nat → α)
    (h : j < n) : ((List.range n).map f)[j]? = some (f j) := by
  simp [List.getElem?_map, List.getElem?_range h]

theorem set_map_range {α : Type} (n j : Nat) (f g : Nat → α) (x : α)
    (hj : j < n) (hx : g j = x) (hg : ∀ i, i < n → i ≠ j → g i = f i) :
    ((List.range n).map f).set j x = (List.range n).map g := by
  rw [map_range_set n j f x hj]
  refine map_range_congr n _ _ (fun i hi => ?_)
  rcases eq_or_ne i j with rfl | hne
  · rw [if_pos rfl, hx]
  · rw [if_neg hne, (hg i hi hne)]

theorem run_singleton (s s' : Sys) (a : Act) (h : s.stepAct a = some s') :
    Sys.run s [a] = some s' := by
  rw [run_cons s s' a [] h]
  rfl

/-! ### The canonical schedule executes one full round -/

theorem sys_eq {g1 g2 : Bool} {c1 c2 m1 m2 : Nat} {t1 t2 : List TState}
    {f1 f2 : Nat} (h1 : g1 = g2) (h2 : c1 = c2) (h3 : m1 = m2)
    (h4 : t1 = t2) (h5 : f1 = f2) :
    Sys.mk g1 c1 m1 t1 f1 = Sys.mk g2 c2 m2 t2 f2 := by
  subst h1 h2 h3 h4 h5
  rfl

theorem tstate_eq {l1 l2 u1 u2 : Bool} {p1 p2 : Pc} {s1 s2 d1 d2 : Nat}
    {r1 r2 : List Bool} {n1 n2 : Nat} (h1 : l1 = l2) (h2 : u1 = u2)
    (h3 : p1 = p2) (h4 : s1 = s2) (h5 : d1 = d2) (h6 : r1 = r2)
    (h7 : n1 = n2) :
    TState.mk l1 u1 p1 s1 d1 r1 n1 = TState.mk l2 u2 p2 s2 d2 r2 n2 := by
  subst h1 h2 h3 h4 h5 h6 h7
  rfl

theorem arrState_zero (n r : Nat) : arrState n r 0 = canonical n r := by
  unfold arrState canonical
  refine sys_eq rfl (by omega) rfl ?_ rfl
  refine map_range_congr n _ _ (fun i hi => ?_)
  rw [if_neg (by omega)]

theorem arrive_step_mid (n r j : Nat) (h2 : n < USIZE) (hj : j + 1 ≤ n - 1) :
    (arrState n r j).stepAct (.arrive j) = some (arrState n r (j + 1)) := by
  have hjn : j < n := by omega
  have ht : (arrState n r j).threads[j]? = some (canonT n r j) := by
    show ((List.range n).map _)[j]? = _
    rw [getElem?_map_range n j _ hjn, if_neg (by omega)]
  rw [stepAct_arrive_spec (arrState n r j) j (canonT n r j) ht rfl]
  refine congrArg some ?_
  unfold arrState
  refine sys_eq rfl ?_ rfl ?_ rfl
  · show wrapDec (n - j) = n - (j + 1)
    rw [wrapDec_eq (n - j) (by omega) (by omega)]
    omega
  · refine set_map_range n j _ _ _ hjn ?_ ?_
    · rw [if_pos (by omega)]
      show spinT n r j = _
      unfold spinT canonT
      refine tstate_eq (senseOf_succ r) (by simp) ?_ rfl rfl rfl rfl
      show Pc.spinning = if n - j = 1 then Pc.leaderReset else Pc.spinning
      rw [if_neg (by omega)]
    · intro i hi hne
      rcases Nat.lt_or_ge i j with hlt | hge
      · rw [if_pos (by omega), if_pos hlt]
      · rw [if_neg (by omega), if_neg (by omega)]

theorem one_lt_USIZE : 1 < USIZE := by
  unfold USIZE
  norm_num

theorem run_arrivals (n r : Nat) (h2 : n < USIZE) :
    ∀ j, j ≤ n - 1 →
      Sys.run (canonical n r) ((List.range j).map Act.arrive)
        = some (arrState n r j) := by
  intro j
  induction j with
  | zero =>
    intro _
    rw [arrState_zero]
    rfl
  | succ j ih =>
    intro hj
    rw [List.range_succ, List.map_append,
      run_append _ _ _ _ (ih (by omega))]
    exact run_singleton _ _ _ (arrive_step_mid n r j h2 hj)

theorem arrive_step_last (n r : Nat) (h1 : 1 ≤ n) (h2 : n < USIZE) :
    (arrState n r (n - 1)).stepAct (.arrive (n - 1))
      = some (midState n r .leaderReset 0) := by
  have hjn : n - 1 < n := by omega
  have ht : (arrState n r (n - 1)).threads[n - 1]?
      = some (canonT n r (n - 1)) := by
    show ((List.range n).map _)[n - 1]? = _
    rw [getElem?_map_range n (n - 1) _ hjn, if_neg (by omega)]
  rw [stepAct_arrive_spec _ _ _ ht rfl]
  refine congrArg some ?_
  unfold arrState midState
  refine sys_eq rfl ?_ rfl ?_ rfl
  · show wrapDec (n - (n - 1)) = 0
    have h3 : n - (n - 1) = 1 := by omega
    rw [h3, wrapDec_eq 1 (Nat.le_refl 1) one_lt_USIZE]
  · refine set_map_range n (n - 1) _ _ _ hjn ?_ ?_
    · rw [if_neg (by omega)]
      show ldrT r .leaderReset = _
      unfold ldrT canonT
      refine tstate_eq (senseOf_succ r) (by simp) ?_ rfl rfl ?_ rfl
      · show Pc.leaderReset = if n - (n - 1) = 1 then .leaderReset else .spinning
        rw [if_pos (by omega)]
      · show List.replicate r true = List.replicate r (decide (n - 1 = n - 1))
        simp
    · intro i hi hne
      have h3 : i < n - 1 := by omega
      rw [if_pos h3, if_pos h3]

theorem reset_step (n r : Nat) (h1 : 1 ≤ n) :
    (midState n r .leaderReset 0).stepAct (.reset (n - 1))
      = some (midState n r .leaderFlip n) := by
  have hjn : n - 1 < n := by omega
  have ht : (midState n r .leaderReset 0).threads[n - 1]?
      = some (ldrT r .leaderReset) := by
    show ((List.range n).map _)[n - 1]? = _
    rw [getElem?_map_range n (n - 1) _ hjn, if_neg (by omega)]
  rw [stepAct_reset_spec _ _ _ ht rfl]
  refine congrArg some ?_
  unfold midState
  refine sys_eq rfl rfl rfl ?_ rfl
  refine set_map_range n (n - 1) _ _ _ hjn ?_ ?_
  · rw [if_neg (by omega)]
    show ldrT r .leaderFlip = _
    unfold ldrT
    rfl
  · intro i hi hne
    have h3 : i < n - 1 := by omega
    rw [if_pos h3, if_pos h3]

theorem flip_step (n r : Nat) (h1 : 1 ≤ n) :
    (midState n r .leaderFlip n).stepAct (.flip (n - 1))
      = some (exitState n r 0) := by
  have hjn : n - 1 < n := by omega
  have ht : (midState n r .leaderFlip n).threads[n - 1]?
      = some (ldrT r .leaderFlip) := by
    show ((List.range n).map _)[n - 1]? = _
    rw [getElem?_map_range n (n - 1) _ hjn, if_neg (by omega)]
  rw [stepAct_flip_spec _ _ _ ht rfl]
  refine congrArg some ?_
  unfold midState exitState
  refine sys_eq rfl rfl rfl ?_ rfl
  refine set_map_range n (n - 1) _ _ _ hjn ?_ ?_
  · rw [if_neg (by omega), if_neg (by omega)]
    show canonT n (r + 1) (n - 1) = _
    unfold canonT ldrT
    refine tstate_eq rfl (by simp) rfl rfl rfl ?_ rfl
    show List.replicate (r + 1) (decide (n - 1 = n - 1))
      = List.replicate r true ++ [true]
    have hd : (decide (n - 1 = n - 1)) = true := by simp
    rw [hd]
    exact List.replicate_succ' r true
  · intro i hi hne
    have h3 : i < n - 1 := by omega
    rw [if_neg (by omega), if_pos h3, if_pos h3]

theorem exit_step (n r j : Nat) (hj : j + 1 ≤ n - 1) :
    (exitState n r j).stepAct (.spinExit j) = some (exitState n r (j + 1)) := by
  have hjn : j < n := by omega
  have ht : (exitState n r j).threads[j]? = some (spinT n r j) := by
    show ((List.range n).map _)[j]? = _
    rw [getElem?_map_range n j _ hjn, if_neg (by omega), if_pos (by omega)]
  rw [stepAct_spinExit_spec _ _ _ ht rfl rfl]
  refine congrArg some ?_
  unfold exitState
  refine sys_eq rfl rfl rfl ?_ rfl
  refine set_map_range n j _ _ _ hjn ?_ ?_
  · rw [if_pos (by omega)]
    show canonT n (r + 1) j = _
    unfold canonT spinT
    refine tstate_eq rfl (by simp) rfl rfl rfl ?_ rfl
    show List.replicate (r + 1) (decide (j = n - 1))
      = List.replicate r (decide (j = n - 1)) ++ [false]
    have hd : (decide (j = n - 1)) = false := by
      simp only [decide_eq_false_iff_not]
      omega
    rw [hd]
    exact List.replicate_succ' r false
  · intro i hi hne
    rcases Nat.lt_or_ge i j with hlt | hge
    · rw [if_pos (by omega), if_pos hlt]
    · have h4 : ¬ i < j := by omega
      have h5 : ¬ i < j + 1 := by omega
      rw [if_neg h5, if_neg h4]

theorem run_exits (n r : Nat) :
    ∀ j, j ≤ n - 1 →
      Sys.run (exitState n r 0) ((List.range j).map Act.spinExit)
        = some (exitState n r j) := by
  intro j
  induction j with
  | zero => intro _; rfl
  | succ j ih =>
    intro hj
    rw [List.range_succ, List.map_append,
      run_append _ _ _ _ (ih (by omega))]
    exact run_singleton _ _ _ (exit_step n r j hj)

theorem exitState_last (n r : Nat) (h1 : 1 ≤ n) :
    exitState n r (n - 1) = canonical n (r + 1) := by
  unfold exitState canonical
  refine sys_eq rfl rfl rfl ?_ rfl
  refine map_range_congr n _ _ (fun i hi => ?_)
  rcases Nat.lt_or_ge i (n - 1) with hlt | hge
  · rw [if_pos hlt]
  · rw [if_neg (by omega), if_neg (by omega)]

theorem init_eq_canonical (n : Nat) : Sys.init n n = canonical n 0 := by
  unfold Sys.init canonical
  refine sys_eq rfl rfl rfl ?_ rfl
  have hmap : (List.range n).map (canonT n 0)
      = (List.range n).map (fun _ => initThread) :=
    map_range_congr n _ _ (fun i hi => by unfold canonT initThread; rfl)
  rw [hmap]
  refine (List.eq_replicate.mpr ⟨by simp, ?_⟩).symm
  intro b hb
  obtain ⟨i, _, rfl⟩ := List.mem_map.mp hb
  rfl

theorem run_roundActs (n r : Nat) (h1 : 1 ≤ n) (h2 : n < USIZE) :
    Sys.run (canonical n r) (roundActs n) = some (canonical n (r + 1)) := by
  have hn : n - 1 + 1 = n := by omega
  have hr1 : List.range n = List.range (n - 1) ++ [n - 1] := by
    have h3 := List.range_succ (n - 1)
    rw [Nat.succ_eq_add_one, hn] at h3
    exact h3
  have hA := run_arrivals n r h2 (n - 1) (Nat.le_refl _)
  unfold roundActs
  rw [hr1, List.map_append, List.append_assoc, run_append _ _ _ _ hA,
    List.map_cons, List.map_nil, List.singleton_append,
    run_cons _ _ _ _ (arrive_step_last n r h1 h2),
    run_cons _ _ _ _ (reset_step n r h1),
    run_cons _ _ _ _ (flip_step n r h1),
    run_exits n r (n - 1) (Nat.le_refl _), exitState_last n r h1]

theorem run_roundsActs (n : Nat) (h1 : 1 ≤ n) (h2 : n < USIZE) (R : Nat) :
    Sys.run (Sys.init n n) (roundsActs n R) = some (canonical n R) := by
  induction R with
  | zero =>
    show Sys.run (Sys.init n n) [] = _
    rw [init_eq_canonical]
    rfl
  | succ R ih =>
    show Sys.run (Sys.init n n) (roundsActs n R ++ roundActs n) = _
    rw [run_append _ _ _ _ ih]
    exact run_roundActs n R h1 h2

/-! ### Corollaries feeding the claims -/

theorem canonical_completed (n R : Nat) : CompletedRounds R (canonical n R) := by
  intro t ht
  obtain ⟨i, _, rfl⟩ := List.mem_map.mp ht
  exact ⟨rfl, rfl⟩

theorem completed_flips {N R : Nat} {s : Sys} (h1 : 1 ≤ N) (hI : BInv N s)
    (hc : CompletedRounds R s) : s.flips = R := by
  have hlen : 0 < s.threads.length := by rw [hI.len]; omega
  obtain ⟨t, ht⟩ : ∃ t, s.threads[0]? = some t :=
    ⟨_, List.getElem?_eq_getElem hlen⟩
  have hmem := List.getElem?_mem ht
  have hT := hI.tinv t hmem
  obtain ⟨hpc, hdone⟩ := hc t hmem
  have h3 := hT.idle_eq hpc
  have h4 := hT.lo
  have h5 := hT.dhi
  omega

theorem singleton_results_true {s : Sys} (hI : BInv 1 s) :
    ∀ t ∈ s.threads, ∀ b ∈ t.results, b = true := by
  intro t ht b hb
  have hT := hI.tinv t ht
  obtain ⟨r, hr, rfl⟩ := List.mem_iff_getElem.mp hb
  have hrF : r < s.flips := by
    have h1 := hT.rl
    have h2 := hT.dhi
    omega
  have hone := hI.ones r hrF
  obtain ⟨u, hu⟩ : ∃ u, s.threads = [u] := List.length_eq_one.mp hI.len
  obtain rfl : t = u := by
    rw [hu] at ht
    simpa using ht
  rw [hu] at hone
  unfold trueAt at hone
  rw [List.countP_cons, List.countP_nil] at hone
  have hgd : t.results.getD r false = t.results[r] := by
    rw [List.getD_eq_getElem?_getD, List.getElem?_eq_getElem hr]
    rfl
  by_contra hfalse
  have hb0 : t.results[r] = false := by
    cases hx : t.results[r]
    · rfl
    · exact absurd hx hfalse
  rw [hgd, hb0] at hone
  simp at hone

theorem binv1_extra (acts : List Act) (s : Sys)
    (h : Sys.run (Sys.init 1 1) acts = some s) :
    BInv 1 s ∧ ∀ t ∈ s.threads, t.pc ≠ .spinning ∧ t.spins = 0 := by
  refine run_preserves
    (fun s => BInv 1 s ∧ ∀ t ∈ s.threads, t.pc ≠ .spinning ∧ t.spins = 0)
    ?_ acts _ s ⟨binv_init 1, ?_⟩ h
  · rintro s a s' ⟨hI, hE⟩ hstep
    refine ⟨binv_step (Nat.le_refl 1) one_lt_USIZE s a s' hI hstep, ?_⟩
    cases a with
    | arrive i =>
      obtain ⟨t, ht, hpc, rfl⟩ := stepAct_arrive_eq hstep
      have hmem := List.getElem?_mem ht
      have hT := hI.tinv t hmem
      have hstarted : t.started = s.flips := by
        have h1 := hT.idle_eq hpc
        have h2 := hT.lo
        have h3 := hT.dhi
        omega
      have hcnt1 : s.count = 1 := by
        obtain ⟨hA, hcnt⟩ :
            (∀ u ∈ s.threads, u.pc = .idle ∨ u.pc = .spinning) ∧
              s.count + arrivedOf s.flips s.threads = 1 := by
          rcases hI.epoch with hA | ⟨j, u, hj, hupc, _, harr, _⟩
              | ⟨j, u, hj, hupc, _, harr, _⟩
          · exact hA
          · have := all_arrived hI.len harr t hmem
            omega
          · have := all_arrived hI.len harr t hmem
            omega
        have hlt : arrivedOf s.flips s.threads < 1 := by
          have hcc := countP_lt_length_of_not
            (fun u => decide (u.started = s.flips + 1)) s.threads i t ht
            (by simp [hstarted])
          rw [hI.len] at hcc
          unfold arrivedOf
          exact hcc
        omega
      refine forall_mem_set hE ⟨?_, (hE t hmem).2⟩
      show (if s.count = 1 then Pc.leaderReset else Pc.spinning) ≠ Pc.spinning
      rw [if_pos hcnt1]
      simp
    | reset i =>
      obtain ⟨t, ht, hpc, rfl⟩ := stepAct_reset_eq hstep
      exact forall_mem_set hE ⟨by simp, (hE t (List.getElem?_mem ht)).2⟩
    | flip i =>
      obtain ⟨t, ht, hpc, rfl⟩ := stepAct_flip_eq hstep
      exact forall_mem_set hE ⟨by simp, (hE t (List.getElem?_mem ht)).2⟩
    | spinFail i =>
      obtain ⟨t, ht, hpc, _, rfl⟩ := stepAct_spinFail_eq hstep
      exact absurd hpc (hE t (List.getElem?_mem ht)).1
    | spinExit i =>
      obtain ⟨t, ht, hpc, _, rfl⟩ := stepAct_spinExit_eq hstep
      exact absurd hpc (hE t (List.getElem?_mem ht)).1
  · intro t ht
    obtain rfl := List.eq_of_mem_replicate ht
    exact ⟨by simp [initThread], rfl⟩

theorem wrapDec_zero : wrapDec 0 = USIZE - 1 := by
  unfold wrapDec
  have hU := one_lt_USIZE
  rw [Nat.zero_add, Nat.mod_eq_of_lt (by omega)]

theorem senseOf_one : senseOf 1 = false := rfl

theorem inv0_run (m : Nat) (hmU : m < USIZE) (acts : List Act) (s : Sys)
    (h : Sys.run (Sys.init 0 m) acts = some s) :
    s.gsense = true ∧ s.max = 0 ∧ s.threads.length = m ∧
      (∀ t ∈ s.threads, t.results = [] ∧ t.lsense = senseOf t.started ∧
        t.started ≤ 1 ∧ (t.pc = .idle ↔ t.started = 0) ∧
        (t.pc = .spinning ↔ t.started = 1)) ∧
      s.count = (if s.threads.countP (fun u => decide (u.started = 1)) = 0
        then 0 else USIZE - s.threads.countP (fun u => decide (u.started = 1))) := by
  refine run_preserves
    (fun s => s.gsense = true ∧ s.max = 0 ∧ s.threads.length = m ∧
      (∀ t ∈ s.threads, t.results = [] ∧ t.lsense = senseOf t.started ∧
        t.started ≤ 1 ∧ (t.pc = .idle ↔ t.started = 0) ∧
        (t.pc = .spinning ↔ t.started = 1)) ∧
      s.count = (if s.threads.countP (fun u => decide (u.started = 1)) = 0
        then 0 else USIZE - s.threads.countP (fun u => decide (u.started = 1))))
    ?_ acts _ s ⟨rfl, rfl, by simp [Sys.init], ?_, ?_⟩ h
  · rintro s a s' ⟨hg, hmx, hlen, hth, hcnt⟩ hstep
    cases a with
    | arrive i =>
      obtain ⟨t, ht, hpc, rfl⟩ := stepAct_arrive_eq hstep
      have hmem := List.getElem?_mem ht
      obtain ⟨hres, hls, hsle, hidle, hspin⟩ := hth t hmem
      have hst0 : t.started = 0 := hidle.mp hpc
      have halt : s.threads.countP (fun u => decide (u.started = 1)) < m := by
        have := countP_lt_length_of_not
          (fun u => decide (u.started = 1)) s.threads i t ht (by simp [hst0])
        omega
      have hold : s.count ≠ 1 := by
        by_cases hz : s.threads.countP (fun u => decide (u.started = 1)) = 0
        · rw [hcnt, if_pos hz]
          omega
        · rw [hcnt, if_neg hz]
          have hU := one_lt_USIZE
          omega
      have hinc := countP_set_inc (fun u => decide (u.started = 1)) s.threads i
        t { t with used := true, lsense := !t.lsense, started := t.started + 1, pc := if s.count = 1 then .leaderReset else .spinning } ht
        (by simp [hst0]) (by simp [hst0])
      refine ⟨hg, hmx, by simpa [List.length_set] using hlen, ?_, ?_⟩
      · refine forall_mem_set hth ?_
        dsimp only
        rw [if_neg hold]
        refine ⟨hres, ?_, by omega, by simp, by simp [hst0]⟩
        rw [hls, senseOf_succ]
      · show wrapDec s.count = _
        rw [hinc]
        by_cases hz : s.threads.countP (fun u => decide (u.started = 1)) = 0
        · rw [hcnt, if_pos hz, hz, wrapDec_zero, if_neg (by omega)]
        · rw [hcnt, if_neg hz,
            wrapDec_eq (USIZE - s.threads.countP (fun u => decide (u.started = 1))) (by omega) (by omega),
            if_neg (by omega)]
          omega
    | reset i =>
      obtain ⟨t, ht, hpc, rfl⟩ := stepAct_reset_eq hstep
      obtain ⟨_, _, hsle, hidle, hspin⟩ := hth t (List.getElem?_mem ht)
      rcases Nat.le_one_iff_eq_zero_or_eq_one.mp hsle with h0 | h1
      · rw [hidle.mpr h0] at hpc
        exact absurd hpc (by simp)
      · rw [hspin.mpr h1] at hpc
        exact absurd hpc (by simp)
    | flip i =>
      obtain ⟨t, ht, hpc, rfl⟩ := stepAct_flip_eq hstep
      obtain ⟨_, _, hsle, hidle, hspin⟩ := hth t (List.getElem?_mem ht)
      rcases Nat.le_one_iff_eq_zero_or_eq_one.mp hsle with h0 | h1
      · rw [hidle.mpr h0] at hpc
        exact absurd hpc (by simp)
      · rw [hspin.mpr h1] at hpc
        exact absurd hpc (by simp)
    | spinFail i =>
      obtain ⟨t, ht, hpc, _, rfl⟩ := stepAct_spinFail_eq hstep
      have hsame := countP_set_comm (fun u => decide (u.started = 1)) s.threads
        i t { t with spins := t.spins + 1 } ht
      dsimp only at hsame
      refine ⟨hg, hmx, by simpa [List.length_set] using hlen, ?_, ?_⟩
      · refine forall_mem_set hth ?_
        obtain ⟨hres, hls, hsle, hidle, hspin⟩ := hth t (List.getElem?_mem ht)
        exact ⟨hres, hls, hsle, hidle, hspin⟩
      · show s.count = _
        have heq : (s.threads.set i { t with spins := t.spins + 1 }).countP
            (fun u => decide (u.started = 1))
            = s.threads.countP (fun u => decide (u.started = 1)) := by omega
        rw [heq]
        exact hcnt
    | spinExit i =>
      obtain ⟨t, ht, hpc, hgs, rfl⟩ := stepAct_spinExit_eq hstep
      obtain ⟨_, hls, _, _, hspin⟩ := hth t (List.getElem?_mem ht)
      have h1 : t.started = 1 := hspin.mp hpc
      rw [hg, hls, h1, senseOf_one] at hgs
      exact absurd hgs (by simp)
  · intro t ht
    obtain rfl := List.eq_of_mem_replicate ht
    refine ⟨rfl, rfl, Nat.zero_le 1, by constructor <;> intro <;> rfl, ?_⟩
    constructor
    · intro hh
      exact absurd hh (by simp [initThread])
    · intro hh
      exact absurd hh (by simp [initThread])
  · have hz : (List.replicate m initThread).countP
        (fun u => decide (u.started = 1)) = 0 := by
      rw [List.countP_eq_zero]
      intro u hu
      obtain rfl := List.eq_of_mem_replicate hu
      simp [initThread]
    show (0 : Nat) = _
    dsimp only [Sys.init]
    rw [hz]
    simp

/-! ### Claims -/

/-- Claim C1: for every capacity N ≥ 1 (N below the usize bound), with N
handles of one capacity-N barrier each calling `wait` once per round:
completing schedules exist for every number R of rounds (in particular
R = 100), and in every interleaving of the `wait` steps that completes R
rounds, every handle has returned from all R calls recording R results,
and in each round exactly one of the N calls returned `is_leader = true`
(so the other N − 1 returned false). -/
theorem hurdles_C1 (N R : Nat) (h1 : 1 ≤ N) (h2 : N < USIZE) :
    (∃ (acts : List Act) (s : Sys), Sys.run (Sys.init N N) acts = some s ∧
      CompletedRounds R s) ∧
    (∀ (acts : List Act) (s : Sys), Sys.run (Sys.init N N) acts = some s →
      CompletedRounds R s →
      s.threads.length = N ∧
      (∀ t ∈ s.threads, t.results.length = R) ∧
      (∀ r, r < R → trueAt r s.threads = 1)) := by
  constructor
  · exact ⟨roundsActs N R, canonical N R, run_roundsActs N h1 h2 R,
      canonical_completed N R⟩
  · intro acts s hrun hcomp
    have hI := binv_run h1 h2 acts s hrun
    have hF : s.flips = R := completed_flips h1 hI hcomp
    refine ⟨hI.len, ?_, ?_⟩
    · intro t ht
      rw [(hI.tinv t ht).rl, (hcomp t ht).2]
    · intro r hr
      exact hI.ones r (by omega)

/-- Claim C2: `Clone::clone` hits the fatal `assert!(!self.used)` panic
exactly when the source handle's `used` flag is true; on an unused
handle it always succeeds; and in the operational model `used` is true
exactly when the handle has begun at least one `wait` call (its first
`fetch_sub` has executed).  The panic is a pure function of the handle,
hence deterministic on every violating call. -/
theorem hurdles_C2 :
    (∀ b : Barrier, Barrier.clone b = CloneResult.fatal ↔ b.used = true) ∧
    (∀ b : Barrier, b.used = false →
      Barrier.clone b
        = CloneResult.ok { inner := b.inner, lsense := b.lsense, used := false }) ∧
    (∀ (N : Nat) (acts : List Act) (s : Sys), 1 ≤ N → N < USIZE →
      Sys.run (Sys.init N N) acts = some s →
      ∀ t ∈ s.threads, (t.used = true ↔ 1 ≤ t.started)) := by
  refine ⟨?_, ?_, ?_⟩
  · intro b
    unfold Barrier.clone
    cases hb : b.used <;> simp
  · intro b hb
    unfold Barrier.clone
    rw [hb]
    rfl
  · intro N acts s h1 h2 hrun t ht
    have hT := (binv_run h1 h2 acts s hrun).tinv t ht
    rw [hT.us]
    simp

theorem run_three (s s₁ s₂ s₃ : Sys) (a₁ a₂ a₃ : Act)
    (h₁ : s.stepAct a₁ = some s₁) (h₂ : s₁.stepAct a₂ = some s₂)
    (h₃ : s₂.stepAct a₃ = some s₃) :
    Sys.run s [a₁, a₂, a₃] = some s₃ := by
  rw [run_cons _ _ _ _ h₁, run_cons _ _ _ _ h₂]
  exact run_singleton _ _ _ h₃

/-- Claim C3: a `wait` call whose `fetch_sub` captures the value 1 runs
the straight-line leader branch: it stores `max` back into the counter,
stores its freshly flipped `lsense` into `gsense`, and returns
`is_leader = true`, in exactly three atomic steps (`fetch_sub`, counter
store, sense store) with no spin-loop load; the handle's final state
records the extra `true` result with `spins` unchanged.  For capacity 1,
no reachable handle state is ever inside the spin loop, no spin
iteration is ever executed, and every recorded result is `true`. -/
theorem hurdles_C3 :
    (∀ (s : Sys) (i : Nat) (t : TState), s.threads[i]? = some t →
      t.pc = .idle → s.count = 1 →
      ∃ s' : Sys, Sys.run s [.arrive i, .reset i, .flip i] = some s' ∧
        s'.gsense = !t.lsense ∧ s'.count = s.max ∧
        s'.flips = s.flips + 1 ∧
        s'.threads = s.threads.set i { t with lsense := !t.lsense, used := true, pc := .idle, started := t.started + 1, done := t.done + 1, results := t.results ++ [true] }) ∧
    (∀ (acts : List Act) (s : Sys), Sys.run (Sys.init 1 1) acts = some s →
      ∀ t ∈ s.threads, t.pc ≠ .spinning ∧ t.spins = 0 ∧
        ∀ b ∈ t.results, b = true) := by
  constructor
  · intro s i t ht hpc hcnt
    have hlt := lt_length_of_getElem? ht
    have hs1 := stepAct_arrive_spec s i t ht hpc
    rw [hcnt] at hs1
    have h11 : (if (1 : Nat) = 1 then Pc.leaderReset else Pc.spinning)
        = Pc.leaderReset := if_pos rfl
    rw [h11] at hs1
    refine ⟨_, run_three _ _ _ _ _ _ _ hs1
      (stepAct_reset_spec _ i _ (getElem?_set_self _ _ _ hlt) rfl)
      (stepAct_flip_spec _ i _
        (getElem?_set_self _ _ _ (by simpa using hlt)) rfl),
      rfl, rfl, rfl, ?_⟩
    show ((s.threads.set i _).set i _).set i _ = s.threads.set i _
    rw [List.set_set, List.set_set]
  · intro acts s hrun t ht
    obtain ⟨hI, hE⟩ := binv1_extra acts s hrun
    exact ⟨(hE t ht).1, (hE t ht).2, singleton_results_true hI t ht⟩

/-- Claim C4: in every reachable state of a correctly used capacity-N
barrier, no handle has returned from a round that any handle has not yet
entered (every recorded return count is at most every handle's
`fetch_sub` count, so with N participants none of the first N − 1
callers has returned until the Nth `fetch_sub` has occurred); and a
spinning call can only return through the load that observes
`gsense = lsense`, at which point it records `is_leader = false`. -/
theorem hurdles_C4 (N : Nat) (h1 : 1 ≤ N) (h2 : N < USIZE)
    (acts : List Act) (s : Sys)
    (hrun : Sys.run (Sys.init N N) acts = some s) :
    (∀ (i j : Nat) (ti tj : TState), s.threads[i]? = some ti →
      s.threads[j]? = some tj → ti.done ≤ tj.started) ∧
    (∀ (i : Nat) (s' : Sys), s.stepAct (.spinExit i) = some s' →
      ∃ t, s.threads[i]? = some t ∧ t.pc = .spinning ∧
        s.gsense = t.lsense ∧
        ∃ t', s'.threads[i]? = some t' ∧
          t'.results = t.results ++ [false]) := by
  have hI := binv_run h1 h2 acts s hrun
  constructor
  · intro i j ti tj hti htj
    have hTi := hI.tinv ti (List.getElem?_mem hti)
    have hTj := hI.tinv tj (List.getElem?_mem htj)
    have h3 := hTi.dhi
    have h4 := hTj.lo
    omega
  · intro i s' hstep
    obtain ⟨t, ht, hpc, hg, rfl⟩ := stepAct_spinExit_eq hstep
    exact ⟨t, ht, hpc, hg,
      ⟨{ t with pc := .idle, done := t.done + 1, results := t.results ++ [false] },
        getElem?_set_self _ _ _ (lt_length_of_getElem? ht), rfl⟩⟩

/-- Claim C5 (amended): `Barrier::new` never fails: for every capacity
`n` — including 0 — it returns a handle with `consumed = false` and
`local_sense = true` whose shared allocation is initialized with
`remaining = n`, `round_sense = true` and `capacity = n`. -/
theorem hurdles_C5 (n : Nat) (heap : List BarrierInner) :
    ∃ (b : Barrier) (heap' : List BarrierInner),
      Barrier.new n heap = (b, heap') ∧
      b.used = false ∧ b.lsense = true ∧
      heap'[b.inner]? = some { gsense := true, count := n, max := n } := by
  refine ⟨_, _, rfl, rfl, rfl, ?_⟩
  show (heap ++ [{ gsense := true, count := n, max := n }])[heap.length]? = _
  exact List.getElem?_concat_length heap _

/-- Counterexample to claim C5 as stated: constructing with capacity 0
does not fail and is not undefined — `Barrier::new 0` is a total,
well-defined computation returning an ordinary handle whose shared
state has `count = 0`. -/
theorem hurdles_C5_cx :
    Barrier.new 0 [] = ({ inner := 0, lsense := true, used := false },
      [{ gsense := true, count := 0, max := 0 }]) ∧
    ((Barrier.new 0 []).2[(Barrier.new 0 []).1.inner]?).map BarrierInner.count
      = some 0 := ⟨rfl, rfl⟩

/-- Claim C6: in every reachable state of a correctly used capacity-N
barrier the counter satisfies `remaining ≤ N` (it is a `Nat`, so
`0 ≤ remaining` is automatic); in each completed round exactly one call
recorded `is_leader = true`; at most one handle at a time is in the
leader release path; and only a handle whose `fetch_sub` captured 1
(program point `leaderReset`/`leaderFlip`) can execute the counter reset
and the `gsense` flip. -/
theorem hurdles_C6 (N : Nat) (h1 : 1 ≤ N) (h2 : N < USIZE)
    (acts : List Act) (s : Sys)
    (hrun : Sys.run (Sys.init N N) acts = some s) :
    s.count ≤ N ∧
    (∀ r, r < s.flips → trueAt r s.threads = 1) ∧
    (∀ (i j : Nat) (ti tj : TState), s.threads[i]? = some ti →
      s.threads[j]? = some tj →
      (ti.pc = .leaderReset ∨ ti.pc = .leaderFlip) →
      (tj.pc = .leaderReset ∨ tj.pc = .leaderFlip) → i = j) ∧
    (∀ (i : Nat) (s' : Sys), s.stepAct (.reset i) = some s' →
      ∃ t, s.threads[i]? = some t ∧ t.pc = .leaderReset ∧
        s'.count = s.max) ∧
    (∀ (i : Nat) (s' : Sys), s.stepAct (.flip i) = some s' →
      ∃ t, s.threads[i]? = some t ∧ t.pc = .leaderFlip ∧
        s'.gsense = t.lsense) := by
  have hI := binv_run h1 h2 acts s hrun
  refine ⟨?_, hI.ones, ?_, ?_, ?_⟩
  · rcases hI.epoch with ⟨_, hcnt⟩ | ⟨_, _, _, _, hcnt, _, _⟩
        | ⟨_, _, _, _, hcnt, _, _⟩ <;> omega
  · intro i j ti tj hti htj hpi hpj
    have hno : ∀ (k : Nat) (u : TState), s.threads[k]? = some u →
        (u.pc = .leaderReset ∨ u.pc = .leaderFlip) →
        ∀ (l : Nat) (v : TState), s.threads[l]? = some v →
          (v.pc = .leaderReset ∨ v.pc = .leaderFlip) → k = l := by
      rcases hI.epoch with ⟨hA, _⟩ | ⟨k₀, u₀, hk₀, hu₀, _, _, hoth⟩
          | ⟨k₀, u₀, hk₀, hu₀, _, _, hoth⟩
      · intro k u hk hp
        rcases hA u (List.getElem?_mem hk) with hh | hh <;>
          rcases hp with hp | hp <;> rw [hp] at hh <;> exact absurd hh (by simp)
      · intro k u hk hp l v hl hq
        have hki : k = k₀ := by
          by_contra hne
          have := hoth k u hk hne
          rcases hp with hp | hp <;> rw [hp] at this <;>
            exact absurd this (by simp)
        have hli : l = k₀ := by
          by_contra hne
          have := hoth l v hl hne
          rcases hq with hq | hq <;> rw [hq] at this <;>
            exact absurd this (by simp)
        rw [hki, hli]
      · intro k u hk hp l v hl hq
        have hki : k = k₀ := by
          by_contra hne
          have := hoth k u hk hne
          rcases hp with hp | hp <;> rw [hp] at this <;>
            exact absurd this (by simp)
        have hli : l = k₀ := by
          by_contra hne
          have := hoth l v hl hne
          rcases hq with hq | hq <;> rw [hq] at this <;>
            exact absurd this (by simp)
        rw [hki, hli]
    exact hno i ti hti hpi j tj htj hpj
  · intro i s' hstep
    obtain ⟨t, ht, hpc, rfl⟩ := stepAct_reset_eq hstep
    exact ⟨t, ht, hpc, rfl⟩
  · intro i s' hstep
    obtain ⟨t, ht, hpc, rfl⟩ := stepAct_flip_eq hstep
    exact ⟨t, ht, hpc, rfl⟩

/-- Claim C7: cloning an unused handle succeeds and returns a handle
holding the same `inner` pointer, the source's `lsense`, and a fresh
`used = false`; the heap of shared allocations and the source handle are
untouched, so capacity and every shared field are unchanged. -/
theorem hurdles_C7 (b : Barrier) (hb : b.used = false) :
    Barrier.clone b
      = CloneResult.ok { inner := b.inner, lsense := b.lsense, used := false } ∧
    ∀ heap, Barrier.cloneS heap b
      = some (heap, b, { inner := b.inner, lsense := b.lsense, used := false }) := by
  have hcl : Barrier.clone b
      = CloneResult.ok { inner := b.inner, lsense := b.lsense, used := false } := by
    unfold Barrier.clone
    rw [hb]
    rfl
  refine ⟨hcl, fun heap => ?_⟩
  unfold Barrier.cloneS
  rw [hcl]

/-- Claim C8: construction with capacity 0 succeeds (the allocation gets
`remaining = 0`); the first `wait` call on such a barrier captures the
pre-decrement value 0 — not 1 — so the `fetch_sub` wraps the counter to
`2^64 − 1` and the call takes the spin branch; and in every reachable
state of a capacity-0 barrier no handle is ever in the leader path and
no result is ever recorded (in particular no call ever returns
`is_leader = true`). -/
theorem hurdles_C8 (m : Nat) (hm : 1 ≤ m) (hmU : m < USIZE) :
    (∀ heap, Barrier.new 0 heap
      = ({ inner := heap.length, lsense := true, used := false },
         heap ++ [{ gsense := true, count := 0, max := 0 }])) ∧
    (Sys.init 0 m).count = 0 ∧ (Sys.init 0 m).count ≠ 1 ∧
    ((Sys.init 0 m).stepAct (.arrive 0) = some { Sys.init 0 m with count := USIZE - 1, threads := (Sys.init 0 m).threads.set 0 { initThread with lsense := !initThread.lsense, used := true, pc := .spinning, started := 1 } }) ∧
    (∀ (acts : List Act) (s : Sys), Sys.run (Sys.init 0 m) acts = some s →
      ∀ t ∈ s.threads, t.results = [] ∧ t.pc ≠ .leaderReset ∧
        t.pc ≠ .leaderFlip) := by
  refine ⟨fun heap => rfl, rfl, by simp [Sys.init], ?_, ?_⟩
  · have ht : (Sys.init 0 m).threads[0]? = some initThread := by
      show (List.replicate m initThread)[0]? = some initThread
      obtain ⟨k, rfl⟩ : ∃ k, m = k + 1 := ⟨m - 1, by omega⟩
      rw [List.replicate_succ]
      exact List.getElem?_cons_zero
    have hs := stepAct_arrive_spec (Sys.init 0 m) 0 initThread ht rfl
    rw [hs]
    refine congrArg some ?_
    refine sys_eq rfl ?_ rfl ?_ rfl
    · show wrapDec 0 = USIZE - 1
      exact wrapDec_zero
    · refine congrArg (List.set _ 0) ?_
      refine tstate_eq rfl rfl ?_ rfl rfl rfl rfl
      show (if (Sys.init 0 m).count = 1 then Pc.leaderReset else Pc.spinning)
        = Pc.spinning
      rw [if_neg (by simp [Sys.init])]
  · intro acts s hrun t ht
    obtain ⟨_, _, _, hth, _⟩ := inv0_run m hmU acts s hrun
    obtain ⟨hres, _, hsle, hidle, hspin⟩ := hth t ht
    refine ⟨hres, ?_, ?_⟩
    · intro hpc
      rcases Nat.le_one_iff_eq_zero_or_eq_one.mp hsle with h0 | h1
      · rw [hidle.mpr h0] at hpc
        exact absurd hpc (by simp)
      · rw [hspin.mpr h1] at hpc
        exact absurd hpc (by simp)
    · intro hpc
      rcases Nat.le_one_iff_eq_zero_or_eq_one.mp hsle with h0 | h1
      · rw [hidle.mpr h0] at hpc
        exact absurd hpc (by simp)
      · rw [hspin.mpr h1] at hpc
        exact absurd hpc (by simp)

/-- Claim C9: the guard on replication consults only the source handle's
own `used` flag: cloning an unused handle succeeds for every heap of
shared allocations (regardless of what other handles have done to the
shared state), with the result independent of the heap, and whether the
fatal path triggers is independent of the heap as well. -/
theorem hurdles_C9 (b : Barrier) :
    (∀ heap, b.used = false →
      Barrier.cloneS heap b
        = some (heap, b, { inner := b.inner, lsense := b.lsense, used := false })) ∧
    (∀ heap₁ heap₂,
      (Barrier.cloneS heap₁ b = none) ↔ (Barrier.cloneS heap₂ b = none)) := by
  constructor
  · intro heap hb
    unfold Barrier.cloneS Barrier.clone
    rw [hb]
    rfl
  · intro heap₁ heap₂
    unfold Barrier.cloneS
    cases Barrier.clone b <;> simp

/-- Claim C10: a successful clone writes nothing: the heap of shared
allocations (hence `remaining`, `round_sense` and `capacity`) and the
source handle (its `lsense` and `used` flags) are returned exactly as
they were. -/
theorem hurdles_C10 (heap heap' : List BarrierInner) (b b₀ b' : Barrier)
    (h : Barrier.cloneS heap b = some (heap', b₀, b')) :
    heap' = heap ∧ b₀ = b ∧ b'.inner = b.inner ∧ b'.lsense = b.lsense := by
  unfold Barrier.cloneS Barrier.clone at h
  by_cases hb : b.used = true
  · rw [if_pos hb] at h
    exact absurd h (by simp)
  · rw [if_neg hb] at h
    simp only [Option.some_inj, Prod.mk.injEq] at h
    obtain ⟨h1, h2, h3⟩ := h
    refine ⟨h1.symm, h2.symm, ?_, ?_⟩
    · rw [← h3]
    · rw [← h3]

/-! ### Witnesses -/

/-- Witness for C1 at N = 2, R = 2: the canonical two-round execution
completes, and each of its two rounds has exactly one leader. -/
theorem hurdles_C1_wit :
    trueAt 0 (canonical 2 2).threads = 1 ∧
    trueAt 1 (canonical 2 2).threads = 1 := by
  have h := (hurdles_C1 2 2 (by decide) (by decide)).2
    (roundsActs 2 2) (canonical 2 2) (by decide) (by unfold CompletedRounds; decide)
  exact ⟨h.2.2 0 (by decide), h.2.2 1 (by decide)⟩

/-- Witness for C2: a used handle makes clone fatal, an unused one
succeeds, and the fresh handle of a one-round-old barrier is marked used
exactly when it has started a call. -/
theorem hurdles_C2_wit :
    Barrier.clone { inner := 0, lsense := true, used := true }
      = CloneResult.fatal ∧
    Barrier.clone { inner := 0, lsense := true, used := false }
      = CloneResult.ok { inner := 0, lsense := true, used := false } ∧
    (initThread.used = true ↔ 1 ≤ initThread.started) :=
  ⟨(hurdles_C2.1 { inner := 0, lsense := true, used := true }).mpr rfl,
   hurdles_C2.2.1 { inner := 0, lsense := true, used := false } rfl,
   hurdles_C2.2.2 1 [] (Sys.init 1 1) (by decide) (by decide) rfl
     initThread (by decide)⟩

/-- Witness for C3: on a fresh capacity-1 barrier the three-step leader
path runs to completion, and the fresh handle has executed no spin
iteration. -/
theorem hurdles_C3_wit :
    (Sys.run (Sys.init 1 1) [.arrive 0, .reset 0, .flip 0]).isSome = true ∧
    initThread.spins = 0 := by
  obtain ⟨s', hrun, _⟩ :=
    hurdles_C3.1 (Sys.init 1 1) 0 initThread (by decide) rfl rfl
  exact ⟨by rw [hrun]; rfl,
    (hurdles_C3.2 [] (Sys.init 1 1) rfl initThread (by decide)).2.1⟩

/-- Witness for C4 at N = 1 in the initial state. -/
theorem hurdles_C4_wit : initThread.done ≤ initThread.started :=
  (hurdles_C4 1 (by decide) (by decide) [] (Sys.init 1 1) rfl).1
    0 0 initThread initThread (by decide) (by decide)

/-- Witness for C6 at N = 2 in the initial state. -/
theorem hurdles_C6_wit : (Sys.init 2 2).count ≤ 2 :=
  (hurdles_C6 2 (by decide) (by decide) [] (Sys.init 2 2) rfl).1

/-- Witness for C7 on a concrete unused handle. -/
theorem hurdles_C7_wit :
    Barrier.clone { inner := 5, lsense := false, used := false }
      = CloneResult.ok { inner := 5, lsense := false, used := false } :=
  (hurdles_C7 { inner := 5, lsense := false, used := false } rfl).1

/-- Witness for C8 with one handle on a capacity-0 barrier. -/
theorem hurdles_C8_wit :
    (Sys.init 0 1).count = 0 ∧
    ((Sys.init 0 1).stepAct (.arrive 0) = some { Sys.init 0 1 with count := USIZE - 1, threads := (Sys.init 0 1).threads.set 0 { initThread with lsense := !initThread.lsense, used := true, pc := .spinning, started := 1 } }) := by
  have h := hurdles_C8 1 (by decide) (by decide)
  exact ⟨h.2.1, h.2.2.2.1⟩

/-- Witness for C9: an unused handle clones successfully over a heap
whose shared state shows another participant already mid-round
(`remaining = 1` out of capacity 2, sense flipped). -/
theorem hurdles_C9_wit :
    Barrier.cloneS [{ gsense := false, count := 1, max := 2 }]
        { inner := 0, lsense := true, used := false }
      = some ([{ gsense := false, count := 1, max := 2 }],
          { inner := 0, lsense := true, used := false },
          { inner := 0, lsense := true, used := false }) :=
  (hurdles_C9 { inner := 0, lsense := true, used := false }).1
    [{ gsense := false, count := 1, max := 2 }] rfl

/-- Witness for C10 on a concrete successful clone. -/
theorem hurdles_C10_wit :
    ([{ gsense := true, count := 3, max := 3 }]
        = [({ gsense := true, count := 3, max := 3 } : BarrierInner)]) ∧
    ({ inner := 0, lsense := true, used := false } : Barrier)
        = { inner := 0, lsense := true, used := false } ∧
    ({ inner := 0, lsense := true, used := false } : Barrier).inner
        = ({ inner := 0, lsense := true, used := false } : Barrier).inner ∧
    ({ inner := 0, lsense := true, used := false } : Barrier).lsense
        = ({ inner := 0, lsense := true, used := false } : Barrier).lsense :=
  hurdles_C10 [{ gsense := true, count := 3, max := 3 }]
    [{ gsense := true, count := 3, max := 3 }]
    { inner := 0, lsense := true, used := false }
    { inner := 0, lsense := true, used := false }
    { inner := 0, lsense := true, used := false } rfl
